import Mathlib

/-!
# Verification of the N-Queens iterative-repair engine (`src/lib.rs`)

Shallow embedding of the Rust `NQueens` state machine and proofs about its
behaviour.  Modelling conventions:

* `usize` is modelled as `Nat`.  All quantities relevant to the verified
  properties (board size, columns, conflict counts) stay far below `2 ^ 64`,
  so wrap-around never matters; accordingly `checked_add` never fails in the
  model while `checked_sub` is modelled exactly.
* `Vec<usize>` is `List Nat`; `HashSet<Vec<usize>>` is `Finset (List Nat)`.
  Rust's indexing `v[i]` is modelled with `List.getD` (every verified use
  keeps the index in bounds, matching the panic-free executions).
* Randomness (`thread_rng`, `choose`, `gen_range`, `rand::random`) is made
  explicit: `step` receives a `Choices` record holding the outcome of each
  random draw, and `ValidChoices` states that each outcome lies in exactly
  the collection the code draws it from.  `into_random_state` receives the
  list of raw `rand::random::<usize>()` draws.
* `sort_unstable_by(|a, b| a.1.cmp(&b.1))` is modelled by the deterministic
  stable `List.insertionSort` on the same key (the middle component of the
  triple).  Rust leaves the order of equal-cost entries unspecified; the
  model fixes it in a stability-preserving way.
* The scratch vector `costs` is fully overwritten at the start of every
  `step` (indices `0..n` are all assigned before any read), so the phase
  computations below rebuild it from scratch; the field is still threaded
  through the state for fidelity.
-/

/-- The `Side` enum selecting which diagonal to scan. -/
inductive Side where
  | Left
  | Right

/-- The `NQueens` struct: board size, queen columns indexed by row, the set of
previously seen position vectors, the scratch cost table and the verbosity
flag. -/
structure NQueens where
  n : Nat
  queens : List Nat
  last_queens : Finset (List Nat)
  costs : List (Nat × Nat × Nat)
  verbose : Bool
  deriving DecidableEq

/-- `usize::checked_sub`. -/
def checkedSub (a b : Nat) : Option Nat :=
  if b ≤ a then some (a - b) else none

/-- `usize::checked_add`; the overflow case (sum ≥ 2^64) is unreachable in
every verified context, so the model always succeeds. -/
def checkedAdd (a b : Nat) : Option Nat :=
  some (a + b)

namespace NQueens

/-- `column_c`: number of other queens placed in the same column. -/
def column_c (b : NQueens) (of : Nat) : Nat :=
  ((List.range b.n).filter
    (fun x => x ≠ of ∧ b.queens.getD x 0 = b.queens.getD of 0)).length

/-- `diagonal_c`: number of other queens on the selected diagonal.  The
offset is the row distance `|x - of|` (computed as in the source via
`checked_sub` with an `of - x` fallback), and the probed column is
`queens[of] ∓ offset` via the checked operations. -/
def diagonal_c (b : NQueens) (of : Nat) (side : Side) : Nat :=
  ((List.range b.n).filter
    (fun x =>
      if x ≠ of then
        let offset := match checkedSub x of with
          | some v => v
          | none => of - x
        match (match side with
          | Side.Left => checkedSub (b.queens.getD of 0) offset
          | Side.Right => checkedAdd (b.queens.getD of 0) offset) with
          | some res => b.queens.getD x 0 = res
          | none => false
      else false)).length

/-- `cost_of`: the three cost components `[columns, left diagonal, right
diagonal]` of one queen. -/
def cost_of (b : NQueens) (of : Nat) : List Nat :=
  [column_c b of, diagonal_c b of Side.Left, diagonal_c b of Side.Right]

/-- `cost_of(of).into_iter().sum()`, the total cost of a single queen (the
spec's `overall_cost_of`). -/
def cost_sum (b : NQueens) (of : Nat) : Nat :=
  (cost_of b of).sum

/-- `overall_cost`: total cost of the whole board. -/
def overall_cost (b : NQueens) : Nat :=
  ((List.range b.n).map (fun queen => cost_sum b queen)).sum

/-- `into_random_state`: clear the history and reseed every queen with a raw
random draw reduced mod `n`; `draws` lists the `rand::random::<usize>()`
results. -/
def into_random_state (b : NQueens) (draws : List Nat) : NQueens :=
  { b with
    last_queens := ∅,
    queens := (List.range b.queens.length).map (fun i => draws.getD i 0 % b.n) }

/-- `with_verbose`. -/
def with_verbose (b : NQueens) (value : Bool) : NQueens :=
  { b with verbose := value }

/-- `with_state`: succeeds exactly when the supplied state has the same
length as the queens vector (`vec![0; n]` has capacity `n` and is never
resized, so `queens.capacity()` is its length); on success the history is
cleared and the values are copied elementwise (the `iter_mut().zip(...)`
loop, i.e. `zipWith` keeping the second component). -/
def with_state (b : NQueens) (state : List Nat) : Option NQueens :=
  if state.length = b.queens.length then
    some { b with
      last_queens := ∅,
      queens := List.zipWith (fun _ s => s) b.queens state }
  else none

/-- `new`: boards smaller than 4×4 are rejected; otherwise all queens start
at column 0 with empty history and a zeroed scratch table. -/
def new (with_n : Nat) : Option NQueens :=
  if 4 ≤ with_n then
    some { n := with_n,
           queens := List.replicate with_n 0,
           last_queens := ∅,
           costs := List.replicate with_n (0, 0, 0),
           verbose := false }
  else none

/-- The sort key used by both `sort_unstable_by` calls in `step`: the middle
component (the cost) of a scratch-table triple. -/
def costs_key (t : Nat × Nat × Nat) : Nat :=
  t.2.1

/-- The comparison relation of `sort_unstable_by(|a, b| a.1.cmp(&b.1))`. -/
def key_le (a b : Nat × Nat × Nat) : Prop :=
  costs_key a ≤ costs_key b

instance : DecidableRel key_le := fun a b => inferInstanceAs (Decidable (_ ≤ _))

instance : IsTotal (Nat × Nat × Nat) key_le :=
  ⟨fun a b => Nat.le_total (costs_key a) (costs_key b)⟩

instance : IsTrans (Nat × Nat × Nat) key_le :=
  ⟨fun _ _ _ h h' => Nat.le_trans h h'⟩

/-- First phase of `step`: the scratch table is filled with
`(queen, cost, current column)` for every queen. -/
def phase1 (b : NQueens) : List (Nat × Nat × Nat) :=
  (List.range b.n).map (fun queen => (queen, cost_sum b queen, b.queens.getD queen 0))

/-- The scratch table after the first `sort_unstable_by`. -/
def sorted1 (b : NQueens) : List (Nat × Nat × Nat) :=
  (phase1 b).insertionSort key_le

/-- `worst_value`: the cost stored in the last (greatest-key) entry of the
sorted table; the source's `.last().map(|&x| x.1).unwrap()`. -/
def worst_value (b : NQueens) : Nat :=
  costs_key ((sorted1 b).getLastD (0, 0, 0))

/-- The iterator the worst-queen `choose` draws from: all sorted entries
whose cost equals `worst_value`. -/
def worst_candidates (b : NQueens) : List (Nat × Nat × Nat) :=
  (sorted1 b).filter (fun x => costs_key x = worst_value b)

/-- The hypothetical cost of the worst queen after provisionally moving it to
`col`: the source writes `queens[worst_pos] = col`, measures
`cost_of(worst_pos)`, and restores `prev_val`; functionally this is the cost
measured on the updated vector, with the original vector untouched. -/
def hyp_cost (b : NQueens) (worst_pos col : Nat) : Nat :=
  cost_sum { b with queens := b.queens.set worst_pos col } worst_pos

/-- Second phase of `step`, given the chosen worst entry
`wp = (worst_pos, cost, prev_val)`: every index `col ≠ prev_val` of the
sorted scratch table is overwritten with `(col, hyp_cost, 0)`; the entry at
index `prev_val` (when `prev_val < n`) is left over from the sorted first
phase. -/
def phase2 (b : NQueens) (wp : Nat × Nat × Nat) : List (Nat × Nat × Nat) :=
  (List.range b.n).map (fun col =>
    if col = wp.2.2 then (sorted1 b).getD col (0, 0, 0)
    else (col, hyp_cost b wp.1 col, 0))

/-- The scratch table after the second `sort_unstable_by`. -/
def sorted2 (b : NQueens) (wp : Nat × Nat × Nat) : List (Nat × Nat × Nat) :=
  (phase2 b wp).insertionSort key_le

/-- `best_cost`: the cost of entry `0` of the re-sorted table
(`self.costs[0]`). -/
def best_cost (b : NQueens) (wp : Nat × Nat × Nat) : Nat :=
  costs_key ((sorted2 b wp).getD 0 (0, 0, 0))

/-- The iterator the best-move `choose` draws from: all re-sorted entries
whose cost equals `best_cost`. -/
def best_candidates (b : NQueens) (wp : Nat × Nat × Nat) : List (Nat × Nat × Nat) :=
  (sorted2 b wp).filter (fun x => costs_key x = best_cost b wp)

/-- The outcomes of the four random draws made by one `step` call. -/
structure Choices where
  worst_pick : Nat × Nat × Nat
  best_pick : Nat × Nat × Nat
  perturb_row : Nat
  perturb_col : Nat

/-- Each random outcome lies in exactly the collection the source draws it
from: the worst pick in the equal-worst-cost entries, the best pick in the
equal-best-cost entries, and the perturbation row/column in `0..n`. -/
def ValidChoices (b : NQueens) (c : Choices) : Prop :=
  c.worst_pick ∈ worst_candidates b ∧
    c.best_pick ∈ best_candidates b c.worst_pick ∧
    c.perturb_row < b.n ∧ c.perturb_col < b.n

instance (b : NQueens) (c : Choices) : Decidable (ValidChoices b c) := by
  unfold ValidChoices
  infer_instance

/-- `step`: compute and sort the per-queen costs, pick a worst queen, probe
all other columns for it, pick a best move, then (cycle check) either
perturb one random queen (if the current positions were already visited) or
record the current positions, and finally commit `queens[worst_pos] =
new_cost`.  Returns the updated state together with the returned
`overall_cost`. -/
def step (b : NQueens) (c : Choices) : NQueens × Nat :=
  let worst_pos := c.worst_pick.1
  let new_cost := c.best_pick.1
  let queens1 :=
    if b.queens ∈ b.last_queens then b.queens.set c.perturb_row c.perturb_col
    else b.queens
  let last1 :=
    if b.queens ∈ b.last_queens then b.last_queens
    else insert b.queens b.last_queens
  let b1 : NQueens :=
    { b with
      queens := queens1.set worst_pos new_cost,
      last_queens := last1,
      costs := sorted2 b c.worst_pick }
  (b1, overall_cost b1)

/-- Two queens attack each other: distinct rows, and equal columns or a
column distance equal to the row distance (stated additively to stay in
`Nat`). -/
def Attacks (b : NQueens) (i j : Nat) : Prop :=
  i ≠ j ∧ (b.queens.getD i 0 = b.queens.getD j 0 ∨
    b.queens.getD i 0 = b.queens.getD j 0 + Nat.dist i j ∨
    b.queens.getD j 0 = b.queens.getD i 0 + Nat.dist i j)

instance (b : NQueens) (i j : Nat) : Decidable (Attacks b i j) := by
  unfold Attacks
  infer_instance

/-- All ordered pairs of attacking queens on the board. -/
def attack_ordered (b : NQueens) : Finset (Nat × Nat) :=
  (Finset.range b.n ×ˢ Finset.range b.n).filter (fun p => Attacks b p.1 p.2)

/-- All unordered (represented as increasing) pairs of attacking queens. -/
def attack_pairs (b : NQueens) : Finset (Nat × Nat) :=
  (Finset.range b.n ×ˢ Finset.range b.n).filter
    (fun p => p.1 < p.2 ∧ Attacks b p.1 p.2)

/-- The lifetime invariant of a validly constructed board. -/
def Invariant (b : NQueens) : Prop :=
  4 ≤ b.n ∧ b.queens.length = b.n ∧ ∀ x ∈ b.queens, x < b.n

/-- One driver-visible mutation of the engine, with its random outcomes made
explicit. -/
inductive Op where
  | randomize (draws : List Nat)
  | setState (vals : List Nat)
  | doStep (c : Choices)

/-- Apply one operation; a failed `with_state` leaves the board untouched
(the driver keeps the previous instance). -/
def applyOp (b : NQueens) : Op → NQueens
  | Op.randomize draws => into_random_state b draws
  | Op.setState vals => (with_state b vals).getD b
  | Op.doStep c => (step b c).1

/-- Apply a sequence of operations. -/
def applyOps (b : NQueens) : List Op → NQueens
  | [] => b
  | op :: ops => applyOps (applyOp b op) ops

/-- Validity of one operation relative to the board it is applied to:
`set_state` only receives in-range values, and `step` only consumes random
outcomes drawn from the collections the code samples. -/
def OpValid (b : NQueens) : Op → Prop
  | Op.randomize _ => True
  | Op.setState vals => ∀ v ∈ vals, v < b.n
  | Op.doStep c => ValidChoices b c

/-- Validity of a whole operation sequence. -/
def OpsValid : NQueens → List Op → Prop
  | _, [] => True
  | b, op :: ops => OpValid b op ∧ OpsValid (applyOp b op) ops

/-- A fresh 4×4 board, as produced by `new(4)`. -/
def board0 : NQueens :=
  { n := 4, queens := [0, 0, 0, 0], last_queens := ∅,
    costs := List.replicate 4 (0, 0, 0), verbose := false }

/-- A solved 4×4 board (no two queens attack each other). -/
def boardS : NQueens :=
  { n := 4, queens := [1, 3, 0, 2], last_queens := ∅,
    costs := List.replicate 4 (0, 0, 0), verbose := false }

/-- A 4×4 board carrying the out-of-range state `[4, 4, 4, 4]`, as accepted
by `with_state`. -/
def boardOOR : NQueens :=
  { n := 4, queens := [4, 4, 4, 4], last_queens := ∅,
    costs := List.replicate 4 (0, 0, 0), verbose := false }

end NQueens

namespace NQueens

/-! ## Helper lemmas -/

/-- The elementwise copy of `with_state` returns the source values when the
lengths agree. -/
theorem zipWith_second {α : Type} (l1 l2 : List α) (h : l1.length = l2.length) :
    List.zipWith (fun _ s => s) l1 l2 = l2 := by
  induction l1 generalizing l2 with
  | nil => cases l2 with
    | nil => rfl
    | cons b t => simp at h
  | cons a t ih => cases l2 with
    | nil => simp at h
    | cons b t2 => simp at h ⊢; exact ih t2 h

theorem getD_mem {α : Type} (l : List α) (i : Nat) (d : α) (h : i < l.length) :
    l.getD i d ∈ l := by
  rw [List.getD_eq_getElem l d h]
  exact List.getElem_mem h

theorem getLastD_mem {α : Type} (l : List α) (d : α) (h : l ≠ []) :
    l.getLastD d ∈ l := by
  have : l.getLastD d = l.getLast h := by
    rw [List.getLastD_eq_getLast?, List.getLast?_eq_getLast l h]
    rfl
  rw [this]
  exact List.getLast_mem h

theorem length_sorted1 (b : NQueens) : (sorted1 b).length = b.n := by
  unfold sorted1
  rw [(List.perm_insertionSort key_le (phase1 b)).length_eq]
  simp [phase1]

theorem length_sorted2 (b : NQueens) (wp : Nat × Nat × Nat) :
    (sorted2 b wp).length = b.n := by
  unfold sorted2
  rw [(List.perm_insertionSort key_le (phase2 b wp)).length_eq]
  simp [phase2]

theorem mem_phase1_of_mem_sorted1 (b : NQueens) (x : Nat × Nat × Nat)
    (h : x ∈ sorted1 b) : x ∈ phase1 b :=
  (List.perm_insertionSort key_le (phase1 b)).mem_iff.mp h

theorem mem_phase2_of_mem_sorted2 (b : NQueens) (wp x : Nat × Nat × Nat)
    (h : x ∈ sorted2 b wp) : x ∈ phase2 b wp :=
  (List.perm_insertionSort key_le (phase2 b wp)).mem_iff.mp h

/-- Shape of every first-phase entry: queen index below `n`, its cost, its
current column. -/
theorem mem_phase1_elim (b : NQueens) (x : Nat × Nat × Nat) (h : x ∈ phase1 b) :
    ∃ q, q < b.n ∧ x = (q, cost_sum b q, b.queens.getD q 0) := by
  simp only [phase1, List.mem_map, List.mem_range] at h
  obtain ⟨q, hq, he⟩ := h
  exact ⟨q, hq, he.symm⟩

/-- Any entry drawn by the best-move choice carries a first component
below `n` (a candidate column, or the queen index of the leftover sorted
entry). -/
theorem best_pick_fst_lt (b : NQueens) (wp pick : Nat × Nat × Nat)
    (h : pick ∈ best_candidates b wp) : pick.1 < b.n := by
  have h1 : pick ∈ sorted2 b wp := List.mem_of_mem_filter h
  have h2 : pick ∈ phase2 b wp := mem_phase2_of_mem_sorted2 b wp pick h1
  simp only [phase2, List.mem_map, List.mem_range] at h2
  obtain ⟨col, hcol, hc⟩ := h2
  by_cases hce : col = wp.2.2
  · rw [if_pos hce] at hc
    have hmem : (sorted1 b).getD col (0, 0, 0) ∈ sorted1 b :=
      getD_mem _ _ _ (by rw [length_sorted1]; exact hcol)
    obtain ⟨q, hq, he⟩ := mem_phase1_elim b _ (mem_phase1_of_mem_sorted1 b _ hmem)
    rw [← hc, he]
    exact hq
  · rw [if_neg hce] at hc
    rw [← hc]
    exact hcol

/-- Any entry drawn by the worst-queen choice is a first-phase entry
`(q, cost_sum q, queens[q])` with `q < n`. -/
theorem worst_pick_elim (b : NQueens) (pick : Nat × Nat × Nat)
    (h : pick ∈ worst_candidates b) :
    ∃ q, q < b.n ∧ pick = (q, cost_sum b q, b.queens.getD q 0) :=
  mem_phase1_elim b pick
    (mem_phase1_of_mem_sorted1 b pick (List.mem_of_mem_filter h))

/-- Reduction of step when the cycle check does not fire. -/
theorem step_of_not_mem (b : NQueens) (c : Choices) (h : b.queens ∉ b.last_queens) :
    step b c =
      ({ b with
          queens := b.queens.set c.worst_pick.1 c.best_pick.1,
          last_queens := insert b.queens b.last_queens,
          costs := sorted2 b c.worst_pick },
        overall_cost
          { b with
            queens := b.queens.set c.worst_pick.1 c.best_pick.1,
            last_queens := insert b.queens b.last_queens,
            costs := sorted2 b c.worst_pick }) := by
  simp [step, h]

/-- Reduction of step when the cycle check fires. -/
theorem step_of_mem (b : NQueens) (c : Choices) (h : b.queens ∈ b.last_queens) :
    step b c =
      ({ b with
          queens := (b.queens.set c.perturb_row c.perturb_col).set c.worst_pick.1 c.best_pick.1,
          last_queens := b.last_queens,
          costs := sorted2 b c.worst_pick },
        overall_cost
          { b with
            queens := (b.queens.set c.perturb_row c.perturb_col).set c.worst_pick.1 c.best_pick.1,
            last_queens := b.last_queens,
            costs := sorted2 b c.worst_pick }) := by
  simp [step, h]

/-- The board cost only reads the size and the queen columns. -/
theorem overall_cost_congr (b b' : NQueens) (hn : b.n = b'.n)
    (hq : b.queens = b'.queens) : overall_cost b = overall_cost b' := by
  simp only [overall_cost, cost_sum, cost_of, column_c, diagonal_c, hn, hq]

/-! ## C9: construction -/

/-- C9: for sizes below 4 no instance is created; for sizes at least 4 the
board starts with all-zero positions of the requested length, an empty
visited set, a zeroed scratch table and verbose off — identically on every
call with the same size. -/
theorem c9_create (s : Nat) :
    (s < 4 → new s = none) ∧
    (4 ≤ s → new s = some
      { n := s, queens := List.replicate s 0, last_queens := ∅,
        costs := List.replicate s (0, 0, 0), verbose := false }) := by
  constructor
  · intro h
    simp only [new, if_neg (by omega : ¬ 4 ≤ s)]
  · intro h
    simp only [new, if_pos h]

/-- Witness for C9 at sizes 3 and 4. -/
theorem c9_create_witness :
    new 3 = none ∧ new 4 = some
      { n := 4, queens := List.replicate 4 0, last_queens := ∅,
        costs := List.replicate 4 (0, 0, 0), verbose := false } :=
  ⟨(c9_create 3).1 (by omega), (c9_create 4).2 (by omega)⟩

/-! ## C4: explicit state assignment -/

/-- C4 counterexample: with_state accepts a state whose values all equal the
board size (9 ≥ 4 would have to be rejected as OutOfRange according to the
claim), so the claimed range validation does not exist in the code. -/
theorem c4_counterexample :
    with_state board0 [9, 9, 9, 9] =
      some { board0 with last_queens := ∅, queens := [9, 9, 9, 9] } ∧
    board0.n ≤ 9 := by
  constructor
  · decide
  · decide

/-- C4 amended: with_state fails exactly on a length mismatch, leaving the
state untouched, and on success clears the visited set and copies the values
verbatim — including out-of-range ones; no OutOfRange validation happens. -/
theorem c4_set_state (b : NQueens) (vals : List Nat) (hlen : b.queens.length = b.n) :
    (vals.length ≠ b.n → with_state b vals = none) ∧
    (vals.length = b.n → with_state b vals =
      some { b with last_queens := ∅, queens := vals }) := by
  constructor
  · intro h
    simp only [with_state, if_neg (by omega : ¬ vals.length = b.queens.length)]
  · intro h
    have he : vals.length = b.queens.length := by omega
    simp only [with_state, if_pos he]
    rw [zipWith_second b.queens vals he.symm]

/-- Witness for C4 on a fresh 4×4 board: a wrong-length state is rejected, a
matching-length state is copied with the history cleared. -/
theorem c4_set_state_witness :
    with_state board0 [1, 2] = none ∧
    with_state board0 [1, 2, 3, 0] =
      some { board0 with last_queens := ∅, queens := [1, 2, 3, 0] } :=
  ⟨(c4_set_state board0 [1, 2] rfl).1 (by decide),
   (c4_set_state board0 [1, 2, 3, 0] rfl).2 rfl⟩

/-! ## C2: cycle check, perturbation and the planned move -/

/-- C2: when the pre-move positions are already in the visited set, one
(randomly drawn, in-range) queen receives a (randomly drawn, in-range)
column and the visited set is unchanged; otherwise the positions are
recorded and no perturbation happens; in both cases the planned move
queens[worst_pos] = new_col is applied afterwards. -/
theorem c2_cycle_check (b : NQueens) (c : Choices) (hv : ValidChoices b c) :
    (b.queens ∈ b.last_queens →
      (step b c).1.last_queens = b.last_queens ∧
      (step b c).1.queens =
        (b.queens.set c.perturb_row c.perturb_col).set c.worst_pick.1 c.best_pick.1) ∧
    (b.queens ∉ b.last_queens →
      (step b c).1.last_queens = insert b.queens b.last_queens ∧
      (step b c).1.queens = b.queens.set c.worst_pick.1 c.best_pick.1) := by
  refine ⟨fun h => ?_, fun h => ?_⟩
  · rw [step_of_mem b c h]
    exact ⟨rfl, rfl⟩
  · rw [step_of_not_mem b c h]
    exact ⟨rfl, rfl⟩

/-- Witness for C2 on the fresh board (empty history: the recording branch). -/
theorem c2_cycle_check_witness :
    ValidChoices board0 ⟨(0, 3, 0), (1, 1, 0), 0, 0⟩ ∧
    (board0.queens ∉ board0.last_queens →
      (step board0 ⟨(0, 3, 0), (1, 1, 0), 0, 0⟩).1.last_queens =
        insert board0.queens board0.last_queens ∧
      (step board0 ⟨(0, 3, 0), (1, 1, 0), 0, 0⟩).1.queens =
        board0.queens.set 0 1) :=
  ⟨by decide, (c2_cycle_check board0 ⟨(0, 3, 0), (1, 1, 0), 0, 0⟩ (by decide)).2⟩

/-! ## C10: frame property of step -/

/-- C10: a step changes at most the worst queen's entry and — only when the
cycle branch fired — the perturbed entry; every other position keeps its
value (every provisional candidate placement having been restored). -/
theorem c10_frame (b : NQueens) (c : Choices) (hv : ValidChoices b c) (i : Nat)
    (hw : i ≠ c.worst_pick.1) (hp : b.queens ∈ b.last_queens → i ≠ c.perturb_row) :
    (step b c).1.queens.getD i 0 = b.queens.getD i 0 := by
  by_cases h : b.queens ∈ b.last_queens
  · rw [step_of_mem b c h]
    simp only [List.getD_eq_getElem?_getD, List.getElem?_set_ne (Ne.symm hw),
      List.getElem?_set_ne (Ne.symm (hp h))]
  · rw [step_of_not_mem b c h]
    simp only [List.getD_eq_getElem?_getD, List.getElem?_set_ne (Ne.symm hw)]

/-- Witness for C10: on the fresh board, position 2 is untouched by a step
that moves queen 0. -/
theorem c10_frame_witness :
    ValidChoices board0 ⟨(0, 3, 0), (1, 1, 0), 0, 0⟩ ∧
    (step board0 ⟨(0, 3, 0), (1, 1, 0), 0, 0⟩).1.queens.getD 2 0 =
      board0.queens.getD 2 0 :=
  ⟨by decide,
   c10_frame board0 ⟨(0, 3, 0), (1, 1, 0), 0, 0⟩ (by decide) 2 (by decide) (by decide)⟩

/-! ## C6: totality of step -/

/-- C6: on a validly constructed board every collection step draws from is
non-empty — the sorted cost table (worst-queen lookup), the equal-worst
filter, the re-sorted table (index-0 lookup, length n ≥ 4) and the
equal-best filter — so none of the unwrap points can fail. -/
theorem c6_totality (b : NQueens) (h4 : 4 ≤ b.n) (hlen : b.queens.length = b.n) :
    phase1 b ≠ [] ∧ sorted1 b ≠ [] ∧ worst_candidates b ≠ [] ∧
    (∀ wp, (sorted2 b wp).length = b.n) ∧ (∀ wp, best_candidates b wp ≠ []) := by
  have hs1 : (sorted1 b).length = b.n := length_sorted1 b
  have hs1ne : sorted1 b ≠ [] := by
    apply List.length_pos.mp
    omega
  refine ⟨?_, hs1ne, ?_, length_sorted2 b, ?_⟩
  · apply List.length_pos.mp
    simp only [phase1, List.length_map, List.length_range]
    omega
  · have hmem : (sorted1 b).getLastD (0, 0, 0) ∈ worst_candidates b := by
      rw [worst_candidates, List.mem_filter]
      exact ⟨getLastD_mem _ _ hs1ne, by simp [worst_value]⟩
    intro hemp
    rw [hemp] at hmem
    exact List.not_mem_nil _ hmem
  · intro wp
    have hs2 : (sorted2 b wp).length = b.n := length_sorted2 b wp
    have hmem : (sorted2 b wp).getD 0 (0, 0, 0) ∈ best_candidates b wp := by
      rw [best_candidates, List.mem_filter]
      exact ⟨getD_mem _ _ _ (by omega), by simp [best_cost]⟩
    intro hemp
    rw [hemp] at hmem
    exact List.not_mem_nil _ hmem

/-- Witness for C6 on the fresh 4×4 board. -/
theorem c6_totality_witness :
    4 ≤ board0.n ∧ board0.queens.length = board0.n ∧
    worst_candidates board0 ≠ [] ∧ best_candidates board0 (0, 3, 0) ≠ [] := by
  have h := c6_totality board0 (by decide) (by decide)
  exact ⟨by decide, by decide, h.2.2.1, h.2.2.2.2 (0, 3, 0)⟩

end NQueens

namespace NQueens

/-! ## C3: counting machinery -/

/-- Cardinality of a filtered range as a count over the embedded list. -/
theorem card_filter_range (n : Nat) (p : Nat → Prop) [DecidablePred p] :
    ((Finset.range n).filter p).card = (List.range n).countP (fun x => decide (p x)) := by
  simp [Finset.card, Finset.filter, Finset.range, Multiset.range, List.countP_eq_length_filter]

theorem sum_map_range (n : Nat) (f : Nat → Nat) :
    ((List.range n).map f).sum = ∑ i ∈ Finset.range n, f i := by
  induction n with
  | zero => simp
  | succ m ih =>
    rw [List.range_succ, Finset.sum_range_succ]
    simp [ih]

/-- The row-distance computation of `diagonal_c` is the natural distance. -/
theorem offset_eq_dist (x of : Nat) :
    (match checkedSub x of with | some v => v | none => of - x) = Nat.dist x of := by
  by_cases h2 : of ≤ x
  · simp [checkedSub, h2, Nat.dist]
  · simp [checkedSub, h2, Nat.dist]
    omega

theorem column_c_eq_card (b : NQueens) (of : Nat) :
    column_c b of = ((Finset.range b.n).filter
      (fun x => x ≠ of ∧ b.queens.getD x 0 = b.queens.getD of 0)).card := by
  rw [card_filter_range, column_c, ← List.countP_eq_length_filter]


theorem diagonal_c_left_eq_card (b : NQueens) (of : Nat) :
    diagonal_c b of Side.Left = ((Finset.range b.n).filter
      (fun x => x ≠ of ∧ Nat.dist x of ≤ b.queens.getD of 0 ∧
        b.queens.getD x 0 = b.queens.getD of 0 - Nat.dist x of)).card := by
  rw [card_filter_range, diagonal_c, ← List.countP_eq_length_filter]
  apply List.countP_congr
  intro x _
  by_cases hxof : x = of
  · simp [hxof]
  · simp only [if_pos (by exact hxof : x ≠ of)]
    rw [offset_eq_dist x of]
    generalize b.queens.getD of 0 = A
    generalize b.queens.getD x 0 = X
    by_cases hle : Nat.dist x of ≤ A
    · simp [checkedSub, hle, hxof]
    · simp [checkedSub, hle, hxof]

theorem diagonal_c_right_eq_card (b : NQueens) (of : Nat) :
    diagonal_c b of Side.Right = ((Finset.range b.n).filter
      (fun x => x ≠ of ∧
        b.queens.getD x 0 = b.queens.getD of 0 + Nat.dist x of)).card := by
  rw [card_filter_range, diagonal_c, ← List.countP_eq_length_filter]
  apply List.countP_congr
  intro x _
  by_cases hxof : x = of
  · simp [hxof]
  · simp only [if_pos (by exact hxof : x ≠ of)]
    rw [offset_eq_dist x of]
    generalize b.queens.getD of 0 = A
    generalize b.queens.getD x 0 = X
    simp [checkedAdd, hxof]

/-- The per-queen cost counts exactly the other queens attacking it. -/
theorem cost_sum_eq_card (b : NQueens) (of : Nat) :
    cost_sum b of =
      ((Finset.range b.n).filter (fun x => Attacks b of x)).card := by
  have hlr : Disjoint
      ((Finset.range b.n).filter
        (fun x => x ≠ of ∧ Nat.dist x of ≤ b.queens.getD of 0 ∧
          b.queens.getD x 0 = b.queens.getD of 0 - Nat.dist x of))
      ((Finset.range b.n).filter
        (fun x => x ≠ of ∧
          b.queens.getD x 0 = b.queens.getD of 0 + Nat.dist x of)) := by
    rw [Finset.disjoint_left]
    intro x hx1 hx2
    simp only [Finset.mem_filter, Finset.mem_range, ne_eq, Nat.dist] at hx1 hx2
    omega
  have hclr : Disjoint
      ((Finset.range b.n).filter
        (fun x => x ≠ of ∧ b.queens.getD x 0 = b.queens.getD of 0))
      (((Finset.range b.n).filter
        (fun x => x ≠ of ∧ Nat.dist x of ≤ b.queens.getD of 0 ∧
          b.queens.getD x 0 = b.queens.getD of 0 - Nat.dist x of)) ∪
       ((Finset.range b.n).filter
        (fun x => x ≠ of ∧
          b.queens.getD x 0 = b.queens.getD of 0 + Nat.dist x of))) := by
    rw [Finset.disjoint_left]
    intro x hx1 hx2
    simp only [Finset.mem_union, Finset.mem_filter, Finset.mem_range, ne_eq,
      Nat.dist] at hx1 hx2
    omega
  have hunion :
      ((Finset.range b.n).filter
        (fun x => x ≠ of ∧ b.queens.getD x 0 = b.queens.getD of 0)) ∪
      (((Finset.range b.n).filter
        (fun x => x ≠ of ∧ Nat.dist x of ≤ b.queens.getD of 0 ∧
          b.queens.getD x 0 = b.queens.getD of 0 - Nat.dist x of)) ∪
       ((Finset.range b.n).filter
        (fun x => x ≠ of ∧
          b.queens.getD x 0 = b.queens.getD of 0 + Nat.dist x of))) =
      (Finset.range b.n).filter (fun x => Attacks b of x) := by
    ext x
    simp only [Finset.mem_union, Finset.mem_filter, Finset.mem_range, Attacks,
      ne_eq, Nat.dist]
    omega
  rw [cost_sum, cost_of]
  simp only [List.sum_cons, List.sum_nil, Nat.add_zero]
  rw [column_c_eq_card, diagonal_c_left_eq_card, diagonal_c_right_eq_card,
    ← Finset.card_union_of_disjoint hlr,
    ← Finset.card_union_of_disjoint hclr, hunion]

/-- The attack relation is symmetric. -/
theorem attacks_symm (b : NQueens) (i j : Nat) (h : Attacks b i j) : Attacks b j i := by
  obtain ⟨hne, hd⟩ := h
  refine ⟨fun he => hne he.symm, ?_⟩
  rw [Nat.dist_comm] at hd
  rcases hd with h | h | h
  · exact Or.inl h.symm
  · exact Or.inr (Or.inr h)
  · exact Or.inr (Or.inl h)

/-- The board cost counts the ordered attacking pairs. -/
theorem overall_cost_eq_card (b : NQueens) :
    overall_cost b = (attack_ordered b).card := by
  rw [overall_cost, sum_map_range, attack_ordered, Finset.card_filter, Finset.sum_product]
  apply Finset.sum_congr rfl
  intro i _
  rw [cost_sum_eq_card, Finset.card_filter]

theorem mem_attack_ordered (b : NQueens) (i j : Nat) :
    (i, j) ∈ attack_ordered b ↔ i < b.n ∧ j < b.n ∧ Attacks b i j := by
  rw [attack_ordered, Finset.mem_filter, Finset.mem_product, Finset.mem_range,
    Finset.mem_range]
  tauto

theorem mem_attack_pairs (b : NQueens) (i j : Nat) :
    (i, j) ∈ attack_pairs b ↔ i < b.n ∧ j < b.n ∧ i < j ∧ Attacks b i j := by
  rw [attack_pairs, Finset.mem_filter, Finset.mem_product, Finset.mem_range,
    Finset.mem_range]
  tauto

/-- Ordered attacking pairs are twice the increasing attacking pairs. -/
theorem attack_ordered_card (b : NQueens) :
    (attack_ordered b).card = 2 * (attack_pairs b).card := by
  have hsplit : ((attack_ordered b).filter (fun p => p.1 < p.2)).card +
      ((attack_ordered b).filter (fun p => ¬ p.1 < p.2)).card =
      (attack_ordered b).card :=
    Finset.filter_card_add_filter_neg_card_eq_card (fun p : Nat × Nat => p.1 < p.2)
  have hlt : (attack_ordered b).filter (fun p => p.1 < p.2) = attack_pairs b := by
    ext p
    obtain ⟨p1, p2⟩ := p
    rw [Finset.mem_filter, mem_attack_ordered, mem_attack_pairs]
    tauto
  have hswap : ((attack_ordered b).filter (fun p => ¬ p.1 < p.2)).card =
      (attack_pairs b).card := by
    apply Finset.card_bij' (fun p _ => Prod.swap p) (fun p _ => Prod.swap p)
    · intro p hp
      obtain ⟨p1, p2⟩ := p
      rw [Finset.mem_filter, mem_attack_ordered] at hp
      rw [Prod.swap_prod_mk, mem_attack_pairs]
      obtain ⟨⟨h1, h2, ha⟩, hnlt⟩ := hp
      have hne : p1 ≠ p2 := ha.1
      exact ⟨h2, h1, by omega, attacks_symm b p1 p2 ha⟩
    · intro p hp
      obtain ⟨p1, p2⟩ := p
      rw [mem_attack_pairs] at hp
      rw [Prod.swap_prod_mk, Finset.mem_filter, mem_attack_ordered]
      obtain ⟨h1, h2, hlt2, ha⟩ := hp
      exact ⟨⟨h2, h1, attacks_symm b p1 p2 ha⟩, by omega⟩
    · intro p hp
      exact Prod.swap_swap p
    · intro p hp
      exact Prod.swap_swap p
  rw [hlt, hswap] at hsplit
  omega

end NQueens

namespace NQueens

/-- C3: on every valid board the total cost is exactly twice the number of
attacking pairs (distinct queens sharing a column or a diagonal), hence
even, and is zero exactly when no two queens attack each other. -/
theorem c3_total_cost (b : NQueens) (h4 : 4 ≤ b.n)
    (hlen : b.queens.length = b.n) (hrange : ∀ x ∈ b.queens, x < b.n) :
    overall_cost b = 2 * (attack_pairs b).card ∧ Even (overall_cost b) ∧
    (overall_cost b = 0 ↔
      ∀ i ∈ Finset.range b.n, ∀ j ∈ Finset.range b.n, ¬ Attacks b i j) := by
  have h1 := overall_cost_eq_card b
  have h2 := attack_ordered_card b
  refine ⟨h1.trans h2, ⟨(attack_pairs b).card, by omega⟩, ?_⟩
  rw [h1, Finset.card_eq_zero]
  constructor
  · intro h0 i hi j hj hatt
    have hmem : (i, j) ∈ attack_ordered b :=
      (mem_attack_ordered b i j).mpr
        ⟨Finset.mem_range.mp hi, Finset.mem_range.mp hj, hatt⟩
    rw [h0] at hmem
    exact absurd hmem (Finset.not_mem_empty _)
  · intro hno
    rw [Finset.eq_empty_iff_forall_not_mem]
    intro p hp
    obtain ⟨p1, p2⟩ := p
    rw [mem_attack_ordered] at hp
    exact hno p1 (Finset.mem_range.mpr hp.1) p2 (Finset.mem_range.mpr hp.2.1) hp.2.2

/-- Witness for C3 on the fresh 4×4 board: cost 12, six attacking pairs. -/
theorem c3_total_cost_witness :
    (4 ≤ board0.n ∧ board0.queens.length = board0.n ∧
      ∀ x ∈ board0.queens, x < board0.n) ∧
    overall_cost board0 = 2 * (attack_pairs board0).card ∧
    Even (overall_cost board0) := by
  have h := c3_total_cost board0 (by decide) (by decide) (by decide)
  exact ⟨⟨by decide, by decide, by decide⟩, h.1, h.2.1⟩

/-! ## C5: the lifetime invariant -/

theorem invariant_new (s : Nat) (b : NQueens) (h : new s = some b) :
    Invariant b := by
  rw [new] at h
  by_cases hs : 4 ≤ s
  · rw [if_pos hs, Option.some_inj] at h
    subst h
    refine ⟨hs, by simp, ?_⟩
    intro x hx
    have hx0 : x = 0 := List.eq_of_mem_replicate hx
    show x < s
    omega
  · rw [if_neg hs] at h
    exact absurd h (by simp)

theorem invariant_random (b : NQueens) (draws : List Nat) (hb : Invariant b) :
    Invariant (into_random_state b draws) := by
  obtain ⟨h4, hlen, _⟩ := hb
  refine ⟨h4, ?_, ?_⟩
  · show ((List.range b.queens.length).map (fun i => draws.getD i 0 % b.n)).length = b.n
    simp [hlen]
  · intro x hx
    simp only [into_random_state, List.mem_map, List.mem_range] at hx
    obtain ⟨i, _, rfl⟩ := hx
    exact Nat.mod_lt _ (by omega)

theorem invariant_with_state (b : NQueens) (vals : List Nat) (b' : NQueens)
    (hb : Invariant b) (hvals : ∀ v ∈ vals, v < b.n)
    (h : with_state b vals = some b') : Invariant b' := by
  obtain ⟨h4, hlen, _⟩ := hb
  rw [with_state] at h
  by_cases hl : vals.length = b.queens.length
  · rw [if_pos hl, Option.some_inj] at h
    subst h
    refine ⟨h4, ?_, ?_⟩
    · show (List.zipWith (fun _ s => s) b.queens vals).length = b.n
      rw [zipWith_second b.queens vals hl.symm]
      omega
    · show ∀ x ∈ List.zipWith (fun _ s => s) b.queens vals, x < b.n
      rw [zipWith_second b.queens vals hl.symm]
      exact hvals
  · rw [if_neg hl] at h
    exact absurd h (by simp)

theorem invariant_step (b : NQueens) (c : Choices) (hb : Invariant b)
    (hv : ValidChoices b c) : Invariant (step b c).1 := by
  obtain ⟨h4, hlen, hvals⟩ := hb
  obtain ⟨hw, hbp, hpr, hpc⟩ := hv
  have hnc : c.best_pick.1 < b.n := best_pick_fst_lt b c.worst_pick c.best_pick hbp
  by_cases hm : b.queens ∈ b.last_queens
  · rw [step_of_mem b c hm]
    refine ⟨h4, ?_, ?_⟩
    · show ((b.queens.set c.perturb_row c.perturb_col).set
        c.worst_pick.1 c.best_pick.1).length = b.n
      simp [hlen]
    · show ∀ x ∈ (b.queens.set c.perturb_row c.perturb_col).set
        c.worst_pick.1 c.best_pick.1, x < b.n
      intro x hx
      rcases List.mem_or_eq_of_mem_set hx with hx1 | rfl
      · rcases List.mem_or_eq_of_mem_set hx1 with hx2 | rfl
        · exact hvals x hx2
        · exact hpc
      · exact hnc
  · rw [step_of_not_mem b c hm]
    refine ⟨h4, ?_, ?_⟩
    · show (b.queens.set c.worst_pick.1 c.best_pick.1).length = b.n
      simp [hlen]
    · show ∀ x ∈ b.queens.set c.worst_pick.1 c.best_pick.1, x < b.n
      intro x hx
      rcases List.mem_or_eq_of_mem_set hx with hx1 | rfl
      · exact hvals x hx1
      · exact hnc

theorem invariant_applyOp (b : NQueens) (op : Op) (hb : Invariant b)
    (hop : OpValid b op) : Invariant (applyOp b op) := by
  cases op with
  | randomize draws => exact invariant_random b draws hb
  | setState vals =>
    rw [applyOp]
    rcases hws : with_state b vals with _ | b'
    · exact hb
    · exact invariant_with_state b vals b' hb hop hws
  | doStep c => exact invariant_step b c hb hop

theorem invariant_applyOps (b : NQueens) (ops : List Op) (hb : Invariant b)
    (hops : OpsValid b ops) : Invariant (applyOps b ops) := by
  induction ops generalizing b with
  | nil => exact hb
  | cons op rest ih =>
    obtain ⟨h1, h2⟩ := hops
    exact ih (applyOp b op) (invariant_applyOp b op hb h1) h2

/-- C5 counterexample: with_state accepts the out-of-range state
[4, 4, 4, 4] on a freshly constructed 4×4 board, so after a successful
set_state a position can fail to lie in [0, size). -/
theorem c5_counterexample :
    new 4 = some board0 ∧ with_state board0 [4, 4, 4, 4] = some boardOOR ∧
    (4 : Nat) ∈ boardOOR.queens ∧ ¬ (4 : Nat) < boardOOR.n := by
  refine ⟨by decide, by decide, by decide, by decide⟩

/-- C5 amended: after construction and any sequence of randomize, step (with
its random outcomes drawn from the collections the code samples) and
set_state restricted to in-range values, the positions keep length equal to
the size and every value below the size. -/
theorem c5_invariant (s : Nat) (b : NQueens) (hb : new s = some b)
    (ops : List Op) (hops : OpsValid b ops) :
    (applyOps b ops).queens.length = (applyOps b ops).n ∧
    ∀ x ∈ (applyOps b ops).queens, x < (applyOps b ops).n :=
  (invariant_applyOps b ops (invariant_new s b hb) hops).2

/-- Witness for C5 on a fresh board followed by a valid set_state. -/
theorem c5_invariant_witness :
    OpsValid board0 [Op.setState [1, 2, 3, 0]] ∧
    (applyOps board0 [Op.setState [1, 2, 3, 0]]).queens.length =
      (applyOps board0 [Op.setState [1, 2, 3, 0]]).n ∧
    ∀ x ∈ (applyOps board0 [Op.setState [1, 2, 3, 0]]).queens,
      x < (applyOps board0 [Op.setState [1, 2, 3, 0]]).n := by
  have hops : OpsValid board0 [Op.setState [1, 2, 3, 0]] := by
    show (∀ v ∈ ([1, 2, 3, 0] : List Nat), v < board0.n) ∧ True
    exact ⟨by decide, trivial⟩
  refine ⟨hops, ?_, ?_⟩
  · exact (c5_invariant 4 board0 (by decide) _ hops).1
  · exact (c5_invariant 4 board0 (by decide) _ hops).2

end NQueens

namespace NQueens

/-! ## C7: a solved board stays solved unless the perturbation fires -/

theorem getD_map_range {α : Type} (n i : Nat) (f : Nat → α) (h : i < n) (d : α) :
    ((List.range n).map f).getD i d = f i := by
  simp [List.getD_eq_getElem?_getD, List.getElem?_map, List.getElem?_range, h]

theorem set_getD_self (l : List Nat) (i : Nat) (h : i < l.length) (d : Nat) :
    l.set i (l.getD i d) = l := by
  rw [List.getD_eq_getElem l d h]
  apply List.ext_getElem?
  intro j
  by_cases hj : j = i
  · subst hj
    simp [List.getElem?_set_self h, List.getElem?_eq_getElem h]
  · rw [List.getElem?_set_ne (Ne.symm hj)]

theorem cost_sum_zero_of_total (b : NQueens) (h : overall_cost b = 0) (q : Nat)
    (hq : q < b.n) : cost_sum b q = 0 := by
  rw [overall_cost] at h
  have hall := List.sum_eq_zero_iff.mp h
  exact hall _ (List.mem_map_of_mem _ (List.mem_range.mpr hq))

/-- On a solved board all first-phase costs are zero, so the stable sort
leaves the table in queen order. -/
theorem sorted1_of_solved (b : NQueens) (h0 : overall_cost b = 0) :
    sorted1 b = phase1 b := by
  rw [sorted1]
  apply List.Sorted.insertionSort_eq
  apply List.pairwise_of_forall_mem_list
  intro a ha a' ha'
  simp only [phase1, List.mem_map, List.mem_range] at ha ha'
  obtain ⟨qa, hqa, rfl⟩ := ha
  obtain ⟨qb, hqb, rfl⟩ := ha'
  show cost_sum b qa ≤ cost_sum b qb
  rw [cost_sum_zero_of_total b h0 qa hqa, cost_sum_zero_of_total b h0 qb hqb]

/-- The cost at index 0 of the re-sorted table is a lower bound for every
key of the second-phase table. -/
theorem best_cost_le (b : NQueens) (wp x : Nat × Nat × Nat)
    (hx : x ∈ phase2 b wp) : best_cost b wp ≤ costs_key x := by
  have hx2 : x ∈ sorted2 b wp :=
    (List.perm_insertionSort key_le (phase2 b wp)).mem_iff.mpr hx
  have hsorted : List.Sorted key_le (sorted2 b wp) :=
    List.sorted_insertionSort key_le (phase2 b wp)
  rcases hs2 : sorted2 b wp with _ | ⟨hd, tl⟩
  · rw [hs2] at hx2
    exact absurd hx2 (List.not_mem_nil x)
  · rw [best_cost, hs2, List.getD_cons_zero]
    rw [hs2] at hx2 hsorted
    rcases List.mem_cons.mp hx2 with rfl | hmem
    · exact Nat.le_refl _
    · exact (List.pairwise_cons.mp hsorted).1 x hmem

/-- The leftover sorted entry at index prev_val belongs to the second-phase
table whenever prev_val is a real column. -/
theorem stale_mem_phase2 (b : NQueens) (wp : Nat × Nat × Nat)
    (hpv : wp.2.2 < b.n) : (sorted1 b).getD wp.2.2 (0, 0, 0) ∈ phase2 b wp := by
  rw [phase2]
  refine List.mem_map.mpr ⟨wp.2.2, List.mem_range.mpr hpv, ?_⟩
  exact if_pos rfl

/-- Changing only queen w does not affect attacks between other queens. -/
theorem attacks_set_iff (b : NQueens) (w col i j : Nat) (hi : i ≠ w) (hj : j ≠ w) :
    Attacks { b with queens := b.queens.set w col } i j ↔ Attacks b i j := by
  have h1 : ({ b with queens := b.queens.set w col } : NQueens).queens.getD i 0 =
      b.queens.getD i 0 := by
    show (b.queens.set w col).getD i 0 = b.queens.getD i 0
    simp only [List.getD_eq_getElem?_getD, List.getElem?_set_ne (Ne.symm hi)]
  have h2 : ({ b with queens := b.queens.set w col } : NQueens).queens.getD j 0 =
      b.queens.getD j 0 := by
    show (b.queens.set w col).getD j 0 = b.queens.getD j 0
    simp only [List.getD_eq_getElem?_getD, List.getElem?_set_ne (Ne.symm hj)]
  rw [Attacks, Attacks, h1, h2]

/-- Moving one queen to a conflict-free column keeps a solved board solved. -/
theorem overall_cost_set_zero (b : NQueens) (w col : Nat) (h0 : overall_cost b = 0)
    (hcol : hyp_cost b w col = 0) :
    overall_cost { b with queens := b.queens.set w col } = 0 := by
  have hzero_card : attack_ordered b = ∅ := by
    rw [← Finset.card_eq_zero, ← overall_cost_eq_card, h0]
  have hnoatt : ∀ x, x < b.n → ¬ Attacks { b with queens := b.queens.set w col } w x := by
    intro x hx hax
    have hc := cost_sum_eq_card { b with queens := b.queens.set w col } w
    rw [hyp_cost] at hcol
    rw [hcol] at hc
    have hfe : (Finset.range b.n).filter
        (fun y => Attacks { b with queens := b.queens.set w col } w y) = ∅ :=
      Finset.card_eq_zero.mp hc.symm
    have hmem : x ∈ (Finset.range b.n).filter
        (fun y => Attacks { b with queens := b.queens.set w col } w y) :=
      Finset.mem_filter.mpr ⟨Finset.mem_range.mpr hx, hax⟩
    rw [hfe] at hmem
    exact Finset.not_mem_empty x hmem
  rw [overall_cost_eq_card, Finset.card_eq_zero, Finset.eq_empty_iff_forall_not_mem]
  intro p hp
  obtain ⟨p1, p2⟩ := p
  rw [mem_attack_ordered] at hp
  obtain ⟨h1, h2, hatt⟩ := hp
  by_cases hp1 : p1 = w
  · subst hp1
    exact hnoatt p2 h2 hatt
  · by_cases hp2 : p2 = w
    · subst hp2
      exact hnoatt p1 h1 (attacks_symm _ p1 p2 hatt)
    · have hb : Attacks b p1 p2 := (attacks_set_iff b w col p1 p2 hp1 hp2).mp hatt
      have hmem : (p1, p2) ∈ attack_ordered b :=
        (mem_attack_ordered b p1 p2).mpr ⟨h1, h2, hb⟩
      rw [hzero_card] at hmem
      exact Finset.not_mem_empty _ hmem

end NQueens

namespace NQueens

/-- C7: on a solved board (total cost 0) whose current positions are not yet
in the visited set, step still runs in full — it records the positions into
the visited set — and both the returned value and the total cost of the
resulting board stay 0, for every outcome of the random draws; so the cost
can become positive only when the cycle-perturbation branch fires. -/
theorem c7_solved_step (b : NQueens) (c : Choices) (h4 : 4 ≤ b.n)
    (hlen : b.queens.length = b.n) (hrange : ∀ x ∈ b.queens, x < b.n)
    (hzero : overall_cost b = 0) (hnotvis : b.queens ∉ b.last_queens)
    (hv : ValidChoices b c) :
    (step b c).2 = 0 ∧ overall_cost (step b c).1 = 0 ∧
    (step b c).1.last_queens = insert b.queens b.last_queens := by
  obtain ⟨hw, hbp, _, _⟩ := hv
  obtain ⟨q, hq, hwq⟩ := worst_pick_elim b c.worst_pick hw
  have hwpos : c.worst_pick.1 = q := by rw [hwq]
  have hpv : c.worst_pick.2.2 = b.queens.getD q 0 := by rw [hwq]
  have hpvlt : c.worst_pick.2.2 < b.n := by
    rw [hpv]
    exact hrange _ (getD_mem _ _ _ (by omega))
  have hs1 : sorted1 b = phase1 b := sorted1_of_solved b hzero
  have hstale : (sorted1 b).getD c.worst_pick.2.2 (0, 0, 0) =
      (c.worst_pick.2.2, cost_sum b c.worst_pick.2.2,
        b.queens.getD c.worst_pick.2.2 0) := by
    rw [hs1, phase1]
    exact getD_map_range b.n c.worst_pick.2.2 _ hpvlt (0, 0, 0)
  have hstale_key : costs_key ((sorted1 b).getD c.worst_pick.2.2 (0, 0, 0)) = 0 := by
    rw [hstale]
    show cost_sum b c.worst_pick.2.2 = 0
    exact cost_sum_zero_of_total b hzero _ hpvlt
  have hbc0 : best_cost b c.worst_pick = 0 := by
    have hle := best_cost_le b c.worst_pick _ (stale_mem_phase2 b c.worst_pick hpvlt)
    rw [hstale_key] at hle
    omega
  rw [best_candidates, List.mem_filter] at hbp
  obtain ⟨hbpm0, hbpk0⟩ := hbp
  have hbpm : c.best_pick ∈ phase2 b c.worst_pick :=
    mem_phase2_of_mem_sorted2 _ _ _ hbpm0
  have hbpk : costs_key c.best_pick = 0 := by
    have hk := of_decide_eq_true hbpk0
    rw [hbc0] at hk
    exact hk
  have hmain : overall_cost { b with
      queens := b.queens.set c.worst_pick.1 c.best_pick.1,
      last_queens := insert b.queens b.last_queens,
      costs := sorted2 b c.worst_pick } = 0 := by
    have hcong : overall_cost { b with
        queens := b.queens.set c.worst_pick.1 c.best_pick.1,
        last_queens := insert b.queens b.last_queens,
        costs := sorted2 b c.worst_pick } =
        overall_cost { b with queens := b.queens.set c.worst_pick.1 c.best_pick.1 } :=
      overall_cost_congr _ _ rfl rfl
    rw [hcong]
    simp only [phase2, List.mem_map, List.mem_range] at hbpm
    obtain ⟨col, hcol, hc⟩ := hbpm
    by_cases hce : col = c.worst_pick.2.2
    · rw [if_pos hce] at hc
      rw [hce, hstale] at hc
      have hfst : c.best_pick.1 = c.worst_pick.2.2 := by rw [← hc]
      rw [hfst, hwpos, hpv]
      rw [set_getD_self b.queens q (by omega) 0]
      exact hzero
    · rw [if_neg hce] at hc
      have hfst : c.best_pick.1 = col := by rw [← hc]
      have hhyp : hyp_cost b c.worst_pick.1 col = 0 := by
        have hk : costs_key (col, hyp_cost b c.worst_pick.1 col, 0) = 0 := by
          rw [hc]
          exact hbpk
        exact hk
      rw [hfst]
      exact overall_cost_set_zero b c.worst_pick.1 col hzero hhyp
  rw [step_of_not_mem b c hnotvis]
  exact ⟨hmain, hmain, rfl⟩

/-- Witness for C7 on a solved 4×4 board with a concrete valid draw. -/
theorem c7_solved_step_witness :
    (4 ≤ boardS.n ∧ boardS.queens.length = boardS.n ∧
      (∀ x ∈ boardS.queens, x < boardS.n) ∧ overall_cost boardS = 0 ∧
      boardS.queens ∉ boardS.last_queens ∧
      ValidChoices boardS ⟨(2, 0, 0), (0, 0, 1), 1, 1⟩) ∧
    (step boardS ⟨(2, 0, 0), (0, 0, 1), 1, 1⟩).2 = 0 ∧
    overall_cost (step boardS ⟨(2, 0, 0), (0, 0, 1), 1, 1⟩).1 = 0 := by
  have h := c7_solved_step boardS ⟨(2, 0, 0), (0, 0, 1), 1, 1⟩ (by decide)
    (by decide) (by decide) (by decide) (by decide) (by decide)
  exact ⟨⟨by decide, by decide, by decide, by decide, by decide, by decide⟩, h.1, h.2.1⟩

end NQueens

namespace NQueens

/-- C8: from the explicit 4×4 state [0, 0, 0, 0] (total cost 12), every
possible outcome of the randomized worst-queen and best-move draws makes the
first step move exactly one queen (the chosen worst queen, index below 4) to
a non-zero column, strictly reducing that queen's own conflict count, and
the returned total cost is strictly below 12. -/
theorem c8_first_step (c : Choices) (hv : ValidChoices board0 c) :
    (step board0 c).1.queens = board0.queens.set c.worst_pick.1 c.best_pick.1 ∧
    c.worst_pick.1 < 4 ∧ c.best_pick.1 ≠ 0 ∧
    cost_sum (step board0 c).1 c.worst_pick.1 < cost_sum board0 c.worst_pick.1 ∧
    (step board0 c).2 < 12 := by
  obtain ⟨wp, bp, pr, pc⟩ := c
  obtain ⟨hw, hb, hpr, hpc⟩ := hv
  have hwc : worst_candidates board0 = [(0, 3, 0), (1, 3, 0), (2, 3, 0), (3, 3, 0)] := by
    decide
  rw [hwc] at hw
  fin_cases hw
  · have hbc : best_candidates board0 (0, 3, 0) = [(1, 1, 0), (2, 1, 0), (3, 1, 0)] := by
      decide
    rw [hbc] at hb
    fin_cases hb <;>
      rw [step_of_not_mem board0 _ (by decide)] <;> dsimp only <;>
        refine ⟨rfl, ?_, ?_, ?_, ?_⟩ <;> decide
  · have hbc : best_candidates board0 (1, 3, 0) = [(3, 0, 0)] := by
      decide
    rw [hbc] at hb
    fin_cases hb <;>
      rw [step_of_not_mem board0 _ (by decide)] <;> dsimp only <;>
        refine ⟨rfl, ?_, ?_, ?_, ?_⟩ <;> decide
  · have hbc : best_candidates board0 (2, 3, 0) = [(3, 0, 0)] := by
      decide
    rw [hbc] at hb
    fin_cases hb <;>
      rw [step_of_not_mem board0 _ (by decide)] <;> dsimp only <;>
        refine ⟨rfl, ?_, ?_, ?_, ?_⟩ <;> decide
  · have hbc : best_candidates board0 (3, 3, 0) = [(1, 1, 0), (2, 1, 0), (3, 1, 0)] := by
      decide
    rw [hbc] at hb
    fin_cases hb <;>
      rw [step_of_not_mem board0 _ (by decide)] <;> dsimp only <;>
        refine ⟨rfl, ?_, ?_, ?_, ?_⟩ <;> decide

/-- Witness for C8 at a concrete draw: worst queen 0 moved to column 1. -/
theorem c8_first_step_witness :
    ValidChoices board0 ⟨(0, 3, 0), (1, 1, 0), 0, 0⟩ ∧
    (step board0 ⟨(0, 3, 0), (1, 1, 0), 0, 0⟩).2 < 12 ∧
    (step board0 ⟨(0, 3, 0), (1, 1, 0), 0, 0⟩).1.queens =
      board0.queens.set 0 1 :=
  ⟨by decide, (c8_first_step ⟨(0, 3, 0), (1, 1, 0), 0, 0⟩ (by decide)).2.2.2.2,
    (c8_first_step ⟨(0, 3, 0), (1, 1, 0), 0, 0⟩ (by decide)).1⟩

/-- C1: evaluation of the code at a solved 4×4 board [1, 3, 0, 2] with the
worst draw (0, 0, 1) (queen 0, cost 0, prev_val 1).  The candidate columns
0, 2, 3 have hypothetical costs 1, 3, 1 — their minimum is 1, attained at
columns 0 and 3 — yet the entry at index prev_val = 1 of the sorted
worst-queen table, (1, 0, 3), survives the candidate loop with its stale
cost 0; the minimum the code uses is therefore 0, and the best-move choice
iterator contains exactly that leftover entry and no candidate column, so
the committed value is its first component (the queen index 1), not a
candidate column chosen among the candidate minimum. -/
theorem c1_stale_entry_chosen :
    ValidChoices boardS ⟨(0, 0, 1), (1, 0, 3), 0, 0⟩ ∧
    hyp_cost boardS 0 0 = 1 ∧ hyp_cost boardS 0 2 = 3 ∧ hyp_cost boardS 0 3 = 1 ∧
    (sorted1 boardS).getD 1 (0, 0, 0) = (1, 0, 3) ∧
    best_cost boardS (0, 0, 1) = 0 ∧
    best_candidates boardS (0, 0, 1) = [(1, 0, 3)] ∧
    (step boardS ⟨(0, 0, 1), (1, 0, 3), 0, 0⟩).1.queens = [1, 3, 0, 2] := by
  refine ⟨by decide, by decide, by decide, by decide, by decide, by decide,
    by decide, by decide⟩

end NQueens
